import Mathlib

/-!
Verification of the history-based reconciliation core of `csync.py`.

File names and file contents are modelled as `List Char`; fingerprints
(checksums) as `String`.  Every definition below is a direct shallow
embedding of the corresponding Python function in `src/csync.py`, keeping
the source's name where Lean allows it.
-/

namespace Csync

/-- From `includes(a, b)` (csync.py line 157-159):
`return len(a) >= len(b) and all(a[i] == b[i] for i in range(len(b)))`. -/
def includes (a b : List String) : Bool :=
  decide (b.length ≤ a.length) && (List.range b.length).all fun i => a.getD i "" == b.getD i ""

/-- The four possible relationships between the local and remote histories,
as distinguished by the if/elif chain of `sync` (csync.py lines 126-141). -/
inductive Relationship where
  | Identical
  | LocalAhead
  | RemoteAhead
  | Diverged
  deriving DecidableEq, Repr

/-- The classification performed by the dispatch chain of `sync`
(csync.py lines 126-141): equality, then `includes(local, remote)`,
then `includes(remote, local)`, else diverged. -/
def classify (history_local history_remote : List String) : Relationship :=
  if history_local = history_remote then Relationship.Identical
  else if includes history_local history_remote then Relationship.LocalAhead
  else if includes history_remote history_local then Relationship.RemoteAhead
  else Relationship.Diverged

/-- `history_remote = get_history_remote(...) or ['nan']` (csync.py line 124):
an empty (falsy) remote history is replaced by the sentinel `['nan']`. -/
def effectiveRemote (raw : List String) : List String :=
  if raw = [] then ["nan"] else raw

theorem includes_iff (a b : List String) :
    includes a b = true ↔ b.length ≤ a.length ∧ ∀ i < b.length, a.getD i "" = b.getD i "" := by
  unfold includes
  simp [List.all_eq_true, List.mem_range]

theorem includes_self (a : List String) : includes a a = true := by
  rw [includes_iff]
  exact ⟨Nat.le_refl _, fun i _ => rfl⟩

theorem includes_antisymm {a b : List String}
    (hab : includes a b = true) (hba : includes b a = true) : a = b := by
  rw [includes_iff] at hab hba
  obtain ⟨hlen1, h1⟩ := hab
  obtain ⟨hlen2, h2⟩ := hba
  have hlen : a.length = b.length := Nat.le_antisymm hlen2 hlen1
  apply List.ext_getElem hlen
  intro i hi hib
  have := h1 i hib
  rwa [List.getD_eq_getElem _ _ hi, List.getD_eq_getElem _ _ hib] at this

/-- C6: `includes` is reflexive, and mutual inclusion implies equality
(antisymmetry) — the two algebraic properties of the prefix-containment
primitive claimed in the spec. -/
theorem includes_refl_antisymm :
    (∀ a : List String, includes a a = true) ∧
    (∀ a b : List String, includes a b = true → includes b a = true → a = b) :=
  ⟨includes_self, fun _ _ hab hba => includes_antisymm hab hba⟩

/-- Witness for C6 at concrete inputs. -/
theorem includes_refl_antisymm_witness :
    includes ["f1", "f2"] ["f1", "f2"] = true ∧ (["f1"] : List String) = ["f1"] :=
  ⟨includes_refl_antisymm.1 ["f1", "f2"],
   includes_refl_antisymm.2 ["f1"] ["f1"] (by decide) (by decide)⟩

/-- C1: `classify` returns `Identical` exactly on equal histories,
`LocalAhead` exactly when the local history strictly prefix-includes the
remote one, `RemoteAhead` exactly when the remote history strictly
prefix-includes the local one, and `Diverged` exactly when neither
prefix-includes the other; in particular
`classify [f1,f2,f3] [f1,f2] = LocalAhead` and
`classify [f1,f2,f3] [f1,f4] = Diverged`. -/
theorem classify_cases (hl hr : List String) :
    (classify hl hr = Relationship.Identical ↔ hl = hr) ∧
    (classify hl hr = Relationship.LocalAhead ↔ includes hl hr = true ∧ hl ≠ hr) ∧
    (classify hl hr = Relationship.RemoteAhead ↔ includes hr hl = true ∧ hr ≠ hl) ∧
    (classify hl hr = Relationship.Diverged ↔ includes hl hr = false ∧ includes hr hl = false) ∧
    classify ["f1", "f2", "f3"] ["f1", "f2"] = Relationship.LocalAhead ∧
    classify ["f1", "f2", "f3"] ["f1", "f4"] = Relationship.Diverged := by
  refine ⟨?_, ?_, ?_, ?_, by decide, by decide⟩
  · unfold classify
    split
    · simp_all
    · split <;> [skip; split] <;> simp_all
  · unfold classify
    split
    · simp_all
    · split
      · simp_all
      · split <;> simp_all
  · unfold classify
    split
    · rename_i heq
      subst heq
      simp [includes_self]
    · split
      · rename_i hne hab
        constructor
        · intro h
          exact absurd h (by simp)
        · rintro ⟨hba, -⟩
          exact absurd (includes_antisymm hab hba) hne
      · rename_i hne hnab
        split
        · rename_i hba
          simp only [true_iff, iff_true]
          exact ⟨hba, fun h => hne h.symm⟩
        · simp_all
  · unfold classify
    split
    · rename_i heq
      subst heq
      simp [includes_self]
    · split
      · simp_all
      · split <;> simp_all

/-- C2 counterexample: with an empty remote history, the sentinel `["nan"]`
is substituted, but for the concrete non-empty local history holding one
real 40-hex-character fingerprint the classification is `Diverged`, not
`LocalAhead` as the claim states: the upload branch is NOT taken. -/
theorem sentinel_not_localAhead_counterexample :
    effectiveRemote [] = ["nan"] ∧
    classify ["0123456789abcdef0123456789abcdef01234567"] (effectiveRemote [])
      ≠ Relationship.LocalAhead ∧
    classify ["0123456789abcdef0123456789abcdef01234567"] (effectiveRemote [])
      = Relationship.Diverged := by
  refine ⟨rfl, ?_, ?_⟩ <;> decide

/-- C2 amended: when the remote history read yields an empty history, `sync`
substitutes the sentinel `["nan"]`, and for every non-empty local history
whose first fingerprint is not the sentinel string the resulting
classification is `Diverged` (the manual-reconciliation branch), not
`LocalAhead`. -/
theorem sentinel_empty_remote_diverged (hl : List String)
    (hne : hl ≠ []) (hhead : hl.headD "" ≠ "nan") :
    effectiveRemote [] = ["nan"] ∧ classify hl (effectiveRemote []) = Relationship.Diverged := by
  refine ⟨rfl, ?_⟩
  obtain ⟨x, xs, rfl⟩ := List.exists_cons_of_ne_nil hne
  simp only [List.headD_cons] at hhead
  show classify (x :: xs) ["nan"] = Relationship.Diverged
  unfold classify
  have h1 : includes (x :: xs) ["nan"] = false := by
    rw [Bool.eq_false_iff]
    intro h
    rw [includes_iff] at h
    exact hhead (h.2 0 (by decide))
  have h2 : includes ["nan"] (x :: xs) = false := by
    rw [Bool.eq_false_iff]
    intro h
    rw [includes_iff] at h
    have := h.2 0 (by simp)
    simp only [List.getD_cons_zero] at this
    exact hhead this.symm
  have hne2 : x :: xs ≠ ["nan"] := by
    intro h
    injection h with h1 _
    exact hhead h1
  simp [hne2, h1, h2]

/-- Witness for C2's amended theorem at a concrete local history. -/
theorem sentinel_empty_remote_diverged_witness :
    effectiveRemote [] = ["nan"] ∧
    classify ["abc123"] (effectiveRemote []) = Relationship.Diverged :=
  sentinel_empty_remote_diverged ["abc123"] (by decide) (by decide)

/-- The side-effecting steps a `sync` run can take after classification
(csync.py lines 126-141). -/
inductive Action where
  | backup
  | upload
  | download
  | downloadDiff
  | deleteTemp
  deriving DecidableEq, Repr

/-- The sequence of side-effecting calls made by the dispatch chain of
`sync` (csync.py lines 126-141) in source order: `Identical` only deletes
temp files; `LocalAhead` uploads then deletes temp files; `RemoteAhead`
backs up, downloads, then deletes temp files; `Diverged` only downloads
under a different name. -/
def syncActions (history_local history_remote : List String) : List Action :=
  match classify history_local history_remote with
  | Relationship.Identical => [Action.deleteTemp]
  | Relationship.LocalAhead => [Action.upload, Action.deleteTemp]
  | Relationship.RemoteAhead => [Action.backup, Action.download, Action.deleteTemp]
  | Relationship.Diverged => [Action.downloadDiff]

/-- C3: on the `RemoteAhead` classification the action trace is exactly
backup, then download, then temp-file cleanup — the backup precedes the
overwrite of the local file; and a backup occurs in the trace exactly on
`RemoteAhead`, so the `LocalAhead` (upload) and `Identical` branches never
create one. -/
theorem backup_iff_remoteAhead (hl hr : List String) :
    (classify hl hr = Relationship.RemoteAhead →
      syncActions hl hr = [Action.backup, Action.download, Action.deleteTemp]) ∧
    (Action.backup ∈ syncActions hl hr ↔ classify hl hr = Relationship.RemoteAhead) := by
  unfold syncActions
  constructor
  · intro h
    rw [h]
  · cases classify hl hr <;> simp

/-- Witness for C3: concrete remote-ahead and local-ahead runs. -/
theorem backup_iff_remoteAhead_witness :
    syncActions ["f1"] ["f1", "f2"] = [Action.backup, Action.download, Action.deleteTemp] ∧
    (Action.backup ∈ syncActions ["f1", "f2"] ["f1"] ↔
      classify ["f1", "f2"] ["f1"] = Relationship.RemoteAhead) :=
  ⟨(backup_iff_remoteAhead ["f1"] ["f1", "f2"]).1 (by decide),
   (backup_iff_remoteAhead ["f1", "f2"] ["f1"]).2⟩

/-- From `update_history(fname)` (csync.py lines 213-220): the history log
transformation it applies, with `csum` the current checksum of the file.
`if not history or csum != history[-1]:` append a line starting with
`csum`; the first token of the appended line is `csum` itself. -/
def update_history (csum : List Char) (history : List (List Char)) : List (List Char) :=
  if history = [] ∨ csum ≠ history.getLastD [] then history ++ [csum] else history

/-- C5: `update_history` is idempotent: a second consecutive run with the
same file content (same checksum) returns the history of the first run
unchanged — in particular its length is unchanged; and it appends only
when the history is empty or the current checksum differs from the last
recorded entry (if the last entry already equals the checksum, it is a
no-op). -/
theorem update_history_idempotent (csum : List Char) (h : List (List Char)) :
    update_history csum (update_history csum h) = update_history csum h ∧
    (update_history csum h ≠ h → h = [] ∨ h.getLast? ≠ some csum) ∧
    (h.getLast? = some csum → update_history csum h = h) := by
  refine ⟨?_, ?_, ?_⟩
  · unfold update_history
    split
    · rename_i h1
      have hne : h ++ [csum] ≠ [] := by simp
      have hlast : (h ++ [csum]).getLastD [] = csum := by
        simp [List.getLastD_eq_getLast?]
      simp [hne, hlast]
    · rename_i h1
      simp [h1]
  · intro hchange
    unfold update_history at hchange
    by_cases he : h = []
    · exact Or.inl he
    · right
      intro hlast
      apply hchange
      have hcond : ¬(h = [] ∨ csum ≠ h.getLastD []) := by
        push_neg
        refine ⟨fun hc => he hc, ?_⟩
        rw [List.getLastD_eq_getLast?, hlast]
        rfl
      exact if_neg hcond
  · intro hlast
    have he : h ≠ [] := by
      intro hc
      rw [hc] at hlast
      simp at hlast
    have hcond : ¬(h = [] ∨ csum ≠ h.getLastD []) := by
      push_neg
      refine ⟨fun hc => he hc, ?_⟩
      rw [List.getLastD_eq_getLast?, hlast]
      rfl
    unfold update_history
    exact if_neg hcond

/-- Witness for C5 at concrete inputs. -/
theorem update_history_idempotent_witness :
    (([] : List (List Char)) = [] ∨ ([] : List (List Char)).getLast? ≠ some "c".toList) ∧
    update_history "c".toList ["c".toList] = ["c".toList] :=
  ⟨(update_history_idempotent "c".toList []).2.1 (by decide),
   (update_history_idempotent "c".toList ["c".toList]).2.2 (by decide)⟩

/-- C7: `update_history` is append-only: the existing history is kept
unchanged as a prefix of the result (taking the first `h.length` entries
of the result gives back `h`), the result is either `h` itself or `h`
with exactly one entry appended, and the length grows by at most one —
it never reorders or truncates the log. -/
theorem update_history_append_only (csum : List Char) (h : List (List Char)) :
    (update_history csum h).take h.length = h ∧
    (update_history csum h = h ∨ update_history csum h = h ++ [csum]) ∧
    (update_history csum h).length ≤ h.length + 1 := by
  unfold update_history
  split
  · refine ⟨?_, Or.inr rfl, by simp⟩
    exact List.take_left h [csum]
  · exact ⟨List.take_length h, Or.inl rfl, by simp⟩

/-- From `hfile(fname)` (csync.py line 162-164): name of the history file. -/
def hfile (fname : List Char) : List Char :=
  fname ++ ".history".toList

/-- From `cfile(fname)` (csync.py line 167-169): name of the encrypted file. -/
def cfile (fname : List Char) : List Char :=
  fname ++ ".gpg".toList

/-- Single-character replacement, modelling Python's `s.replace(c, '_')`
for a one-character pattern `c`. -/
def replaceChar (c : Char) (s : List Char) : List Char :=
  s.map fun x => if x = c then '_' else x

/-- From `tfile(fname, location)` (csync.py lines 172-178):
`tmp = 'tmp_%s_%s' % (location, fname)` followed by
`for c in [':', ' ', '/']: tmp = tmp.replace(c, '_')`. -/
def tfile (fname location : List Char) : List Char :=
  replaceChar '/' (replaceChar ' ' (replaceChar ':'
    ("tmp_".toList ++ location ++ "_".toList ++ fname)))

/-- The combined character sanitization performed by the three
`replace` passes of `tfile`. -/
def sanChar (c : Char) : Char :=
  if c = ':' ∨ c = ' ' ∨ c = '/' then '_' else c

theorem tfile_eq_map (fname location : List Char) :
    tfile fname location = ("tmp_".toList ++ location ++ "_".toList ++ fname).map sanChar := by
  unfold tfile replaceChar
  rw [List.map_map, List.map_map]
  apply List.map_congr_left
  intro x _
  simp only [Function.comp]
  unfold sanChar
  by_cases h1 : x = ':'
  · subst h1
    decide
  · by_cases h2 : x = ' '
    · subst h2
      decide
    · by_cases h3 : x = '/'
      · subst h3
        decide
      · simp [h1, h2, h3]

theorem count_underscore_map_san (y : List Char) :
    y.count '_' ≤ (y.map sanChar).count '_' := by
  induction y with
  | nil => simp
  | cons c rest ih =>
    rw [List.map_cons, List.count_cons, List.count_cons]
    have hc : (if (c == '_') = true then 1 else 0) ≤
        (if (sanChar c == '_') = true then 1 else 0) := by
      by_cases h : c = '_'
      · subst h
        decide
      · have hb : (c == '_') = false := by
          simp [h]
        rw [hb]
        simp
    omega

theorem count_underscore_tfile (fname location : List Char) :
    fname.count '_' + 2 ≤ (tfile fname location).count '_' := by
  rw [tfile_eq_map]
  calc fname.count '_' + 2
      ≤ ("tmp_".toList ++ location ++ "_".toList ++ fname).count '_' := by
        rw [List.count_append, List.count_append, List.count_append]
        have h1 : ("tmp_".toList).count '_' = 1 := by decide
        have h2 : ("_".toList).count '_' = 1 := by decide
        rw [h1, h2]
        omega
    _ ≤ _ := count_underscore_map_san _

theorem count_underscore_hfile (fname : List Char) :
    (hfile fname).count '_' = fname.count '_' := by
  unfold hfile
  rw [List.count_append]
  have : (".history".toList).count '_' = 0 := by decide
  rw [this]
  omega

theorem count_underscore_cfile (fname : List Char) :
    (cfile fname).count '_' = fname.count '_' := by
  unfold cfile
  rw [List.count_append]
  have : (".gpg".toList).count '_' = 0 := by decide
  rw [this]
  omega

theorem tfile_ne_fname (fname location : List Char) :
    tfile fname location ≠ fname := by
  intro h
  have := count_underscore_tfile fname location
  rw [h] at this
  omega

theorem tfile_ne_hfile (fname location : List Char) :
    tfile fname location ≠ hfile fname := by
  intro h
  have h1 := count_underscore_tfile fname location
  rw [h, count_underscore_hfile] at h1
  omega

/-- C10: `tfile fname location` equals `"tmp_" ++ location ++ "_" ++ fname`
with every `':'`, `' '` and `'/'` character replaced by `'_'`; the result
contains none of those three characters, and is never equal to `fname`
itself, so temporary and diverged-copy names never collide with the
canonical file name. -/
theorem tfile_spec (fname location : List Char) :
    tfile fname location = ("tmp_".toList ++ location ++ "_".toList ++ fname).map sanChar ∧
    ':' ∉ tfile fname location ∧
    ' ' ∉ tfile fname location ∧
    '/' ∉ tfile fname location ∧
    tfile fname location ≠ fname := by
  refine ⟨tfile_eq_map fname location, ?_, ?_, ?_, tfile_ne_fname fname location⟩ <;>
  · rw [tfile_eq_map]
    intro hmem
    obtain ⟨x, -, hx⟩ := List.mem_map.mp hmem
    unfold sanChar at hx
    split at hx
    · exact absurd hx (by decide)
    · simp_all

/-- A machine's file system, as a map from file names to optional contents. -/
def FileSys : Type := List Char → Option (List Char)

/-- Overwrite one file name with new content, leaving all others unchanged. -/
def writeFile (σ : FileSys) (name content : List Char) : FileSys :=
  fun n => if n = name then some content else σ n

/-- From `download_with_different_name(fname, connection)`
(csync.py lines 258-271): with `name_new = tfile(fname, location)`, it
copies the remote encrypted blob to `cfile(name_new)` and the remote
history to `hfile(name_new)`, then `decrypt(name_new)` writes the plain
content to `name_new`.  `cblob`, `chist` and `cplain` stand for the
fetched encrypted blob, fetched history and decrypted content. -/
def download_with_different_name (fname location : List Char)
    (cblob chist cplain : List Char) (σ : FileSys) : FileSys :=
  let name_new := tfile fname location
  writeFile (writeFile (writeFile σ (cfile name_new) cblob) (hfile name_new) chist)
    name_new cplain

theorem length_hfile (fname : List Char) : (hfile fname).length = fname.length + 8 := by
  simp [hfile]

theorem length_cfile (fname : List Char) : (cfile fname).length = fname.length + 4 := by
  simp [cfile]

/-- C4: the `Diverged` branch of `sync` leaves the local canonical file
`fname` and its history file `hfile fname` byte-for-byte unchanged: all
writes of `download_with_different_name` go to the three names derived
from `tfile fname location`, and the remote version is materialized under
`tfile fname location`, a name distinct from both the canonical file name
and its history file name. -/
theorem diverged_branch_frame (fname location cblob chist cplain : List Char) (σ : FileSys) :
    download_with_different_name fname location cblob chist cplain σ fname = σ fname ∧
    download_with_different_name fname location cblob chist cplain σ (hfile fname)
      = σ (hfile fname) ∧
    download_with_different_name fname location cblob chist cplain σ (tfile fname location)
      = some cplain ∧
    tfile fname location ≠ fname ∧
    tfile fname location ≠ hfile fname := by
  have hcount := count_underscore_tfile fname location
  have hne1 : fname ≠ tfile fname location := fun h => tfile_ne_fname fname location h.symm
  have hne2 : fname ≠ hfile (tfile fname location) := by
    intro h
    have := congrArg (List.count '_') h
    rw [count_underscore_hfile] at this
    omega
  have hne3 : fname ≠ cfile (tfile fname location) := by
    intro h
    have := congrArg (List.count '_') h
    rw [count_underscore_cfile] at this
    omega
  have hne4 : hfile fname ≠ tfile fname location :=
    fun h => tfile_ne_hfile fname location h.symm
  have hne5 : hfile fname ≠ hfile (tfile fname location) := by
    intro h
    have := congrArg (List.count '_') h
    rw [count_underscore_hfile, count_underscore_hfile] at this
    omega
  have hne6 : hfile fname ≠ cfile (tfile fname location) := by
    intro h
    have := congrArg (List.count '_') h
    rw [count_underscore_hfile, count_underscore_cfile] at this
    omega
  unfold download_with_different_name writeFile
  refine ⟨?_, ?_, ?_, tfile_ne_fname fname location, tfile_ne_hfile fname location⟩
  · simp [hne1, hne2, hne3]
  · simp [hne4, hne5, hne6]
  · simp

/-- From `run(cmd)` (csync.py lines 323-329): the command is echoed, then
executed; a nonzero exit status terminates the whole program via
`sys.exit(f'Command failed (exit code: {ret})')`, modelled as an
`Except.error`; success is `Except.ok`. -/
def run (exitCode : Int) : Except String Unit :=
  if exitCode ≠ 0 then
    Except.error ("Command failed (exit code: " ++ toString exitCode ++ ")")
  else Except.ok ()

/-- The loop body of `delete_temp_files`: for each temp name in order, if
the file exists, run `rm` on it; a failing `run` terminates the program
(the error propagates and no later iteration happens). -/
def removeEach (exists_fs : List Char → Bool) (rmExit : List Char → Int) :
    List (List Char) → Except String Unit
  | [] => Except.ok ()
  | tmp :: rest =>
    if exists_fs tmp then
      match run (rmExit tmp) with
      | Except.ok _ => removeEach exists_fs rmExit rest
      | Except.error e => Except.error e
    else removeEach exists_fs rmExit rest

/-- From `delete_temp_files(fname, connection)` (csync.py lines 311-320):
`for tmp in [hfile(path_tmp), cfile(fname)]: if os.path.exists(tmp):
run(f'rm "{tmp}"')` with `path_tmp = tfile(fname, location)`.
`exists_fs` tells whether a file exists; `rmExit` is the exit status the
`rm` command would return for that file. -/
def delete_temp_files (fname location : List Char)
    (exists_fs : List Char → Bool) (rmExit : List Char → Int) : Except String Unit :=
  let path_tmp := tfile fname location
  removeEach exists_fs rmExit [hfile path_tmp, cfile fname]

theorem run_ok_iff (e : Int) : run e = Except.ok () ↔ e = 0 := by
  unfold run
  split <;> simp_all

theorem removeEach_ok_iff (ex : List Char → Bool) (rm : List Char → Int) (l : List (List Char)) :
    removeEach ex rm l = Except.ok () ↔ ∀ tmp ∈ l, ex tmp = true → rm tmp = 0 := by
  induction l with
  | nil => simp [removeEach]
  | cons tmp rest ih =>
    unfold removeEach
    by_cases hex : ex tmp = true
    · rw [if_pos hex]
      by_cases hrm : rm tmp = 0
      · have hok : run (rm tmp) = Except.ok () := (run_ok_iff _).mpr hrm
        rw [hok, ih]
        simp [List.forall_mem_cons, hrm]
      · have herr : run (rm tmp) = Except.error
            ("Command failed (exit code: " ++ toString (rm tmp) ++ ")") := by
          unfold run
          rw [if_pos hrm]
        rw [herr]
        simp [List.forall_mem_cons, hex, hrm]
    · rw [if_neg hex, ih]
      have hexf : ex tmp = false := by
        simpa using hex
      simp [List.forall_mem_cons, hexf]

/-- C8 counterexample: at a concrete input where a removal command fails
(exit status 1), the cleanup phase terminates the whole run with a fatal
`sys.exit`-style error instead of merely logging and succeeding: the
claim that the run still terminates successfully is false. -/
theorem delete_temp_files_failure_fatal_counterexample :
    delete_temp_files "f".toList "loc".toList (fun _ => true) (fun _ => 1)
      = Except.error "Command failed (exit code: 1)" := by
  rfl

/-- C8 amended: a failure while removing temporary artifacts during the
cleanup phase is fatal, because `delete_temp_files` removes files through
`run`, which exits the program on any nonzero status: the cleanup phase
succeeds exactly when every removal attempted on an existing temp file
exits with status 0. -/
theorem delete_temp_files_ok_iff (fname location : List Char)
    (exists_fs : List Char → Bool) (rmExit : List Char → Int) :
    delete_temp_files fname location exists_fs rmExit = Except.ok () ↔
    ∀ tmp ∈ [hfile (tfile fname location), cfile fname],
      exists_fs tmp = true → rmExit tmp = 0 :=
  removeEach_ok_iff exists_fs rmExit _

/-- Witness for C8's amended theorem: when no temp file exists, cleanup
succeeds. -/
theorem delete_temp_files_ok_iff_witness :
    delete_temp_files "f".toList "loc".toList (fun _ => false) (fun _ => 1)
      = Except.ok () :=
  (delete_temp_files_ok_iff "f".toList "loc".toList (fun _ => false) (fun _ => 1)).mpr
    (by decide)

/-- Python's `str.isspace` on the characters `str.split()` splits on. -/
def isspace (c : Char) : Bool :=
  c = ' ' || c = '\t' || c = '\n' || c = '\r' || c = '\x0b' || c = '\x0c'

/-- Helper for `pySplit`: `cur` accumulates the characters of the token
currently being read, in reverse. -/
def pySplitAux : List Char → List Char → List (List Char)
  | [], cur => if cur = [] then [] else [cur.reverse]
  | c :: rest, cur =>
    if isspace c then
      if cur = [] then pySplitAux rest [] else cur.reverse :: pySplitAux rest []
    else pySplitAux rest (c :: cur)

/-- Python's `line.split()`: split on runs of whitespace, discarding empty
pieces. -/
def pySplit (s : List Char) : List (List Char) :=
  pySplitAux s []

/-- From `get_history_local(fname)` (csync.py lines 227-228):
`[line.split()[0] for line in open(hfile(fname))]`.  The file is modelled
as its list of lines; a line with no token makes the indexing `[0]` raise,
modelled as `none`. -/
def get_history_local (lines : List (List Char)) : Option (List (List Char)) :=
  lines.mapM fun line => (pySplit line).head?

/-- The spec's reading of a history line: the first whitespace-delimited
token, i.e. what remains after stripping leading whitespace, up to the
next whitespace. -/
def firstToken (line : List Char) : List Char :=
  (line.dropWhile isspace).takeWhile fun c => !isspace c

theorem pySplitAux_head (rest : List Char) :
    ∀ cur : List Char, cur ≠ [] →
      (pySplitAux rest cur).head? =
        some (cur.reverse ++ rest.takeWhile fun c => !isspace c) := by
  induction rest with
  | nil =>
    intro cur hcur
    unfold pySplitAux
    rw [if_neg hcur]
    simp
  | cons d rest' ih =>
    intro cur hcur
    unfold pySplitAux
    by_cases hd : isspace d = true
    · rw [if_pos hd, if_neg hcur]
      simp [List.takeWhile_cons, hd]
    · have hdf : isspace d = false := by
        simpa using hd
      rw [if_neg (by simp [hdf])]
      rw [ih (d :: cur) (by simp)]
      simp [List.takeWhile_cons, hdf, List.append_assoc]

theorem pySplit_head (l : List Char) (h : ∃ c ∈ l, isspace c = false) :
    (pySplit l).head? = some (firstToken l) := by
  induction l with
  | nil => simp at h
  | cons c rest ih =>
    unfold pySplit pySplitAux firstToken
    by_cases hc : isspace c = true
    · rw [if_pos hc]
      simp only [if_pos rfl]
      have hrest : ∃ d ∈ rest, isspace d = false := by
        obtain ⟨d, hd, hdf⟩ := h
        rcases List.mem_cons.mp hd with rfl | hd'
        · rw [hc] at hdf
          exact absurd hdf (by simp)
        · exact ⟨d, hd', hdf⟩
      have := ih hrest
      unfold pySplit firstToken at this
      rwa [List.dropWhile_cons_of_pos hc]
    · have hcf : isspace c = false := by
        simpa using hc
      rw [if_neg (by simp [hcf])]
      rw [pySplitAux_head rest [c] (by simp)]
      rw [List.dropWhile_cons_of_neg (by simp [hcf])]
      simp [List.takeWhile_cons, hcf]

/-- C9: reading a history log extracts exactly the first
whitespace-delimited token of each line: for every log whose lines each
contain at least one token (one non-whitespace character),
`get_history_local` returns the sequence of first tokens, regardless of
the free-form text that follows on each line. -/
theorem get_history_local_first_tokens (lines : List (List Char))
    (h : ∀ line ∈ lines, ∃ c ∈ line, isspace c = false) :
    get_history_local lines = some (lines.map firstToken) := by
  induction lines with
  | nil => rfl
  | cons line rest ih =>
    have h1 : (pySplit line).head? = some (firstToken line) :=
      pySplit_head line (h line (List.mem_cons_self line rest))
    have h2 : get_history_local rest = some (rest.map firstToken) :=
      ih fun l hl => h l (List.mem_cons_of_mem line hl)
    unfold get_history_local at *
    rw [List.mapM_cons, h1, h2]
    rfl

/-- Witness for C9 at a concrete two-line log with free-form trailing
text: the fingerprints are the first tokens. -/
theorem get_history_local_first_tokens_witness :
    get_history_local ["abc123  Mon Jun 9 at host1".toList, "deadbeef extra stuff".toList]
      = some (["abc123  Mon Jun 9 at host1".toList, "deadbeef extra stuff".toList].map
          firstToken) :=
  get_history_local_first_tokens _ (by decide)

end Csync
